import Mathlib

/-!
Verification of the Blogify RAG backend against its specification.

Shallow embedding of the Python sources:
  - `backend/app/services/rag.py`   (hybrid search, sparse search, citations,
    the `ask` orchestrator and its per-user module-level query cache)
  - `backend/app/services/cache.py` (the Redis-backed `SemanticCache`)
  - `backend/app/services/ingest.py` (the token-bounded chunker)

Python strings are Lean `String`s, Python dicts are insertion-ordered
association lists (Python 3.7+ dicts preserve insertion order; Redis hashes
are modelled the same way since `hset` appends new fields), and Python floats
are modelled as exact rationals `ℚ`.  External components (the sha256/md5
digests, the numpy cosine similarity, the BM25 scorer, the tiktoken
tokenizer, the LLM generation and re-ranking calls) are parameters of the
embedding.
-/

namespace Blogify

/-! ### Python dict primitives (insertion-ordered association lists) -/

/-- `d[k]` lookup: first binding of `k`, if any. -/
def dictGet {α : Type} : List (String × α) → String → Option α
  | [], _ => none
  | kv :: rest, k => if kv.1 = k then some kv.2 else dictGet rest k

/-- `d[k] = v`: overwrite in place if the key exists, else append
(Python dicts and Redis hashes keep insertion order this way). -/
def dictSet {α : Type} : List (String × α) → String → α → List (String × α)
  | [], k, v => [(k, v)]
  | kv :: rest, k, v => if kv.1 = k then (k, v) :: rest else kv :: dictSet rest k v

/-- `del d[k]` / Redis `DELETE`: drop every binding of `k`. -/
def dictDel {α : Type} (d : List (String × α)) (k : String) : List (String × α) :=
  d.filter (fun kv => kv.1 ≠ k)

theorem dictGet_dictSet_self {α : Type} (d : List (String × α)) (k : String) (v : α) :
    dictGet (dictSet d k v) k = some v := by
  induction d with
  | nil => simp [dictGet, dictSet]
  | cons kv rest ih =>
    by_cases h : kv.1 = k
    · simp [dictGet, dictSet, h]
    · simp [dictGet, dictSet, h, ih]

theorem dictGet_dictSet_ne {α : Type} (d : List (String × α)) (k k' : String) (v : α)
    (h : k ≠ k') : dictGet (dictSet d k v) k' = dictGet d k' := by
  induction d with
  | nil => simp [dictGet, dictSet, h]
  | cons kv rest ih =>
    by_cases hk : kv.1 = k
    · simp [dictGet, dictSet, hk, h, Ne.symm h]
    · by_cases hk' : kv.1 = k'
      · simp [dictGet, dictSet, hk, hk', Ne.symm h]
      · simp [dictGet, dictSet, hk, hk', ih]

theorem dictGet_dictDel {α : Type} (d : List (String × α)) (k k' : String) :
    dictGet (dictDel d k) k' = if k' = k then none else dictGet d k' := by
  induction d with
  | nil => simp [dictGet, dictDel]
  | cons kv rest ih =>
    by_cases hk : kv.1 = k
    · have hfilter : dictDel (kv :: rest) k = dictDel rest k := by
        simp [dictDel, List.filter_cons, hk]
      rw [hfilter, ih]
      by_cases hk' : k' = k
      · simp [hk']
      · have : ¬ kv.1 = k' := by rw [hk]; exact fun h => hk' h.symm
        simp [dictGet, this, hk']
    · have hfilter : dictDel (kv :: rest) k = kv :: dictDel rest k := by
        simp [dictDel, List.filter_cons, hk]
      rw [hfilter]
      by_cases hk' : kv.1 = k'
      · have hne : ¬ k' = k := fun h => hk (hk'.trans h)
        simp [dictGet, hk', hne]
      · simp [dictGet, hk', ih]

/-- Python `s.lower()`: case-fold every character (`Char.toLower` covers the
ASCII fold that matters here). -/
def pyLower (s : String) : String := String.mk (s.data.map Char.toLower)

/-- Python `s.strip()`: drop leading and trailing whitespace. -/
def pyStrip (s : String) : String :=
  String.mk (((s.data.dropWhile Char.isWhitespace).reverse.dropWhile
    Char.isWhitespace).reverse)

/-- `question.lower().strip()` — the normalization both caches apply. -/
def pyNormalize (s : String) : String := pyStrip (pyLower s)

/-! ### Data model from `rag.py` -/

/-- `SearchResult` dataclass: a retrieved chunk with its score. -/
structure SearchResult where
  chunk_id : String
  document_id : String
  document_name : String
  text : String
  page_number : Option Nat
  paragraph_number : Option Nat
  score : ℚ
  deriving DecidableEq, Repr

/-- `Citation` dataclass: user-facing summary of a `SearchResult`. -/
structure Citation where
  document_id : String
  document_name : String
  page_number : Option Nat
  paragraph_number : Option Nat
  text_snippet : String
  relevance_score : ℚ
  deriving DecidableEq, Repr

/-! ### Hybrid search fusion (`RAGService.hybrid_search`) -/

/-- `k = 60  # RRF constant` -/
def k_const : ℚ := 60

/-- The `rrf_scores` dict: chunk id to (result, fused score). -/
def RRFDict : Type := List (String × (SearchResult × ℚ))

/-- `for rank, result in enumerate(dense_results): rrf_scores[result.chunk_id] =
{'result': result, 'score': alpha * (1 / (k + rank + 1))}` -/
def denseLoop (alpha : ℚ) : Nat → List SearchResult → RRFDict → RRFDict
  | _, [], d => d
  | rank, r :: rest, d =>
    denseLoop alpha (rank + 1) rest
      (dictSet d r.chunk_id (r, alpha * (1 / (k_const + rank + 1))))

/-- `for rank, result in enumerate(sparse_results):` add `(1 - alpha) * (1 /
(k + rank + 1))` to an existing entry's score, else insert a fresh entry. -/
def sparseLoop (alpha : ℚ) : Nat → List SearchResult → RRFDict → RRFDict
  | _, [], d => d
  | rank, r :: rest, d =>
    let w := (1 - alpha) * (1 / (k_const + rank + 1))
    let d' := match dictGet d r.chunk_id with
      | some rs => dictSet d r.chunk_id (rs.1, rs.2 + w)
      | none => dictSet d r.chunk_id (r, w)
    sparseLoop alpha (rank + 1) rest d'

/-- The fused `rrf_scores` dict built by `hybrid_search` from the dense and
sparse result lists (before sorting and truncation). -/
def rrf_scores (alpha : ℚ) (dense sparse : List SearchResult) : RRFDict :=
  sparseLoop alpha 0 sparse (denseLoop alpha 0 dense [])

/-- The fused score `hybrid_search` assigns to chunk `c`, if any. -/
def rrfScoreOf (d : RRFDict) (c : String) : Option ℚ :=
  (dictGet d c).map Prod.snd

/-- 0-based rank of `c` in a list of chunk ids (`enumerate` order). -/
def rankOf? : List String → String → Option Nat
  | [], _ => none
  | x :: xs, c => if x = c then some 0 else (rankOf? xs c).map (· + 1)

theorem rankOf?_eq_none {ids : List String} {c : String} (h : c ∉ ids) :
    rankOf? ids c = none := by
  induction ids with
  | nil => rfl
  | cons x xs ih =>
    simp only [List.mem_cons, not_or] at h
    have hx : ¬ x = c := fun hh => h.1 hh.symm
    simp [rankOf?, hx, ih h.2]

theorem dictGet_denseLoop_notMem (alpha : ℚ) (rank : Nat) (l : List SearchResult)
    (d : RRFDict) (c : String) (hc : c ∉ l.map SearchResult.chunk_id) :
    dictGet (denseLoop alpha rank l d) c = dictGet d c := by
  induction l generalizing rank d with
  | nil => rfl
  | cons r rest ih =>
    simp only [List.map_cons, List.mem_cons, not_or] at hc
    rw [denseLoop, ih _ _ hc.2, dictGet_dictSet_ne _ _ _ _ (fun h => hc.1 h.symm)]

theorem dictGet_sparseLoop_notMem (alpha : ℚ) (rank : Nat) (l : List SearchResult)
    (d : RRFDict) (c : String) (hc : c ∉ l.map SearchResult.chunk_id) :
    dictGet (sparseLoop alpha rank l d) c = dictGet d c := by
  induction l generalizing rank d with
  | nil => rfl
  | cons r rest ih =>
    simp only [List.map_cons, List.mem_cons, not_or] at hc
    rw [sparseLoop]
    cases hg : dictGet d r.chunk_id with
    | none =>
      simp only [hg]
      rw [ih _ _ hc.2, dictGet_dictSet_ne _ _ _ _ (fun h => hc.1 h.symm)]
    | some rs =>
      simp only [hg]
      rw [ih _ _ hc.2, dictGet_dictSet_ne _ _ _ _ (fun h => hc.1 h.symm)]

theorem scoreOf_denseLoop (alpha : ℚ) (rank : Nat) (l : List SearchResult)
    (d : RRFDict) (c : String) (h : (l.map SearchResult.chunk_id).Nodup) :
    rrfScoreOf (denseLoop alpha rank l d) c =
      match rankOf? (l.map SearchResult.chunk_id) c with
      | some i => some (alpha * (1 / (k_const + (rank + i : Nat) + 1)))
      | none => rrfScoreOf d c := by
  induction l generalizing rank d with
  | nil => rfl
  | cons r rest ih =>
    simp only [List.map_cons, List.nodup_cons] at h
    by_cases hc : r.chunk_id = c
    · subst hc
      rw [denseLoop, rrfScoreOf,
        dictGet_denseLoop_notMem _ _ _ _ _ h.1, dictGet_dictSet_self]
      simp [rankOf?, rrfScoreOf]
    · rw [denseLoop, ih _ _ h.2]
      have hset : rrfScoreOf (dictSet d r.chunk_id
          (r, alpha * (1 / (k_const + (rank : Nat) + 1)))) c = rrfScoreOf d c := by
        rw [rrfScoreOf, dictGet_dictSet_ne _ _ _ _ hc]; rfl
      cases hr : rankOf? (rest.map SearchResult.chunk_id) c with
      | none =>
        simp only [rankOf?, hc, if_false, hr, Option.map_none]
        exact hset
      | some i =>
        simp only [rankOf?, hc, if_false, hr, Option.map_some']
        have hcast : ((rank + 1 + i : Nat) : ℚ) = ((rank + (i + 1) : Nat) : ℚ) := by
          push_cast; ring
        rw [hcast]

theorem scoreOf_sparseLoop (alpha : ℚ) (rank : Nat) (l : List SearchResult)
    (d : RRFDict) (c : String) (h : (l.map SearchResult.chunk_id).Nodup) :
    rrfScoreOf (sparseLoop alpha rank l d) c =
      match rankOf? (l.map SearchResult.chunk_id) c with
      | some i =>
        some ((rrfScoreOf d c).getD 0 + (1 - alpha) * (1 / (k_const + (rank + i : Nat) + 1)))
      | none => rrfScoreOf d c := by
  induction l generalizing rank d with
  | nil => rfl
  | cons r rest ih =>
    simp only [List.map_cons, List.nodup_cons] at h
    by_cases hc : r.chunk_id = c
    · subst hc
      rw [sparseLoop]
      cases hg : dictGet d r.chunk_id with
      | none =>
        simp only [hg, rrfScoreOf]
        rw [dictGet_sparseLoop_notMem _ _ _ _ _ h.1, dictGet_dictSet_self]
        simp [rankOf?, rrfScoreOf, hg]
      | some rs =>
        simp only [hg, rrfScoreOf]
        rw [dictGet_sparseLoop_notMem _ _ _ _ _ h.1, dictGet_dictSet_self]
        simp [rankOf?, rrfScoreOf, hg]
    · rw [sparseLoop]
      have hset : ∀ v : SearchResult × ℚ,
          dictGet (dictSet d r.chunk_id v) c = dictGet d c :=
        fun v => dictGet_dictSet_ne _ _ _ _ hc
      cases hg : dictGet d r.chunk_id with
      | none =>
        simp only [hg]
        rw [ih _ _ h.2]
        cases hr : rankOf? (rest.map SearchResult.chunk_id) c with
        | none =>
          simp only [rankOf?, hc, if_false, hr, Option.map_none]
          rw [rrfScoreOf, hset, ← rrfScoreOf]
          simp
        | some i =>
          simp only [rankOf?, hc, if_false, hr, Option.map_some', rrfScoreOf, hset]
          have hcast : ((rank + 1 + i : Nat) : ℚ) = ((rank + (i + 1) : Nat) : ℚ) := by
            push_cast; ring
          rw [hcast]
      | some rs =>
        simp only [hg]
        rw [ih _ _ h.2]
        cases hr : rankOf? (rest.map SearchResult.chunk_id) c with
        | none =>
          simp only [rankOf?, hc, if_false, hr, Option.map_none]
          rw [rrfScoreOf, hset, ← rrfScoreOf]
          simp
        | some i =>
          simp only [rankOf?, hc, if_false, hr, Option.map_some', rrfScoreOf, hset]
          have hcast : ((rank + 1 + i : Nat) : ℚ) = ((rank + (i + 1) : Nat) : ℚ) := by
            push_cast; ring
          rw [hcast]

/-- C1: the fused RRF score `hybrid_search` assigns to a chunk appearing at
0-based dense rank `r1` and 0-based sparse rank `r2` is
`alpha/(60+r1+1) + (1-alpha)/(60+r2+1)`; a chunk only in the dense list at
rank `r` scores `alpha/(60+r+1)`, only in the sparse list `(1-alpha)/(60+r+1)`,
and a chunk in neither list gets no score. -/
theorem hybrid_rrf_score (alpha : ℚ) (dense sparse : List SearchResult) (c : String)
    (hd : (dense.map SearchResult.chunk_id).Nodup)
    (hs : (sparse.map SearchResult.chunk_id).Nodup) :
    rrfScoreOf (rrf_scores alpha dense sparse) c =
      match rankOf? (dense.map SearchResult.chunk_id) c,
            rankOf? (sparse.map SearchResult.chunk_id) c with
      | some r1, some r2 => some (alpha / (60 + r1 + 1) + (1 - alpha) / (60 + r2 + 1))
      | some r, none => some (alpha / (60 + r + 1))
      | none, some r => some ((1 - alpha) / (60 + r + 1))
      | none, none => none := by
  rw [rrf_scores, scoreOf_sparseLoop _ _ _ _ _ hs]
  rw [scoreOf_denseLoop _ _ _ _ _ hd]
  cases hr1 : rankOf? (dense.map SearchResult.chunk_id) c with
  | none =>
    cases hr2 : rankOf? (sparse.map SearchResult.chunk_id) c with
    | none => simp [rrfScoreOf, dictGet]
    | some r2 =>
      simp only [rrfScoreOf, dictGet, Option.map_none, Option.getD_none]
      rw [zero_add, mul_one_div]
      norm_num [k_const]
  | some r1 =>
    cases hr2 : rankOf? (sparse.map SearchResult.chunk_id) c with
    | none =>
      simp only [Option.getD_some]
      rw [mul_one_div]
      norm_num [k_const]
    | some r2 =>
      simp only [Option.getD_some]
      rw [mul_one_div, mul_one_div]
      norm_num [k_const]

/-- Minimal result used to instantiate witnesses. -/
def wres (i : String) : SearchResult :=
  { chunk_id := i, document_id := "d", document_name := "doc", text := "t",
    page_number := none, paragraph_number := none, score := 0 }

/-- Witness for `hybrid_rrf_score` at `alpha = 7/10`, dense `[a, b]`, sparse `[b]`. -/
theorem hybrid_rrf_score_witness :
    rrfScoreOf (rrf_scores (7/10) [wres "a", wres "b"] [wres "b"]) "b" =
      match rankOf? ([wres "a", wres "b"].map SearchResult.chunk_id) "b",
            rankOf? ([wres "b"].map SearchResult.chunk_id) "b" with
      | some r1, some r2 =>
        some ((7/10) / (60 + r1 + 1) + (1 - 7/10) / (60 + r2 + 1))
      | some r, none => some ((7/10) / (60 + r + 1))
      | none, some r => some ((1 - 7/10) / (60 + r + 1))
      | none, none => none :=
  hybrid_rrf_score (7/10) [wres "a", wres "b"] [wres "b"] "b" (by decide) (by decide)

/-! ### Sparse (BM25) search (`RAGService.sparse_search`) -/

/-- `Chunk` database row, with the fields `sparse_search` reads. -/
structure ChunkRow where
  id : String
  document_id : String
  text : String
  page_number : Option Nat
  paragraph_number : Option Nat
  deriving DecidableEq, Repr, Inhabited

/-- `sorted(range(len(scores)), key=lambda i: scores[i], reverse=True)`:
Python's stable descending sort over the distinct indices `range(n)` orders
by higher score first, breaking ties by original position. -/
def scoreOrder (scores : List ℚ) (i j : Nat) : Prop :=
  scores.getD j 0 < scores.getD i 0 ∨ (scores.getD i 0 = scores.getD j 0 ∧ i ≤ j)

instance (scores : List ℚ) : DecidableRel (scoreOrder scores) := fun _ _ => by
  unfold scoreOrder; infer_instance

instance (scores : List ℚ) : IsTotal Nat (scoreOrder scores) := by
  constructor
  intro i j
  rcases lt_trichotomy (scores.getD i 0) (scores.getD j 0) with h | h | h
  · exact Or.inr (Or.inl h)
  · rcases Nat.le_total i j with hij | hij
    · exact Or.inl (Or.inr ⟨h, hij⟩)
    · exact Or.inr (Or.inr ⟨h.symm, hij⟩)
  · exact Or.inl (Or.inl h)

instance (scores : List ℚ) : IsTrans Nat (scoreOrder scores) := by
  constructor
  intro i j k hij hjk
  rcases hij with h1 | ⟨h1, h1'⟩ <;> rcases hjk with h2 | ⟨h2, h2'⟩
  · exact Or.inl (h2.trans h1)
  · exact Or.inl (h2 ▸ h1)
  · exact Or.inl (by rw [h1]; exact h2)
  · exact Or.inr ⟨h1.trans h2, h1'.trans h2'⟩

/-- The `top_indices` of `sparse_search`: stable descending sort of all
corpus positions by score, truncated to `top_k`. -/
def top_indices (scores : List ℚ) (top_k : Nat) : List Nat :=
  (List.insertionSort (scoreOrder scores) (List.range scores.length)).take top_k

/-- Assemble the `SearchResult` appended for corpus position `idx`
(`docs` maps document ids to `original_filename`, default `"Unknown"`). -/
def mkSparseResult (docs : List (String × String)) (ch : ChunkRow) (score : ℚ) :
    SearchResult :=
  { chunk_id := ch.id, document_id := ch.document_id,
    document_name := (dictGet docs ch.document_id).getD "Unknown",
    text := ch.text, page_number := ch.page_number,
    paragraph_number := ch.paragraph_number, score := score }

/-- `RAGService.sparse_search`, with the external BM25 scorer abstracted:
`scores` stands for `bm25.get_scores(tokenized_query)` over `chunks`.  The
code sorts all positions by descending score, truncates to `top_k`, then keeps
only strictly positive scores. -/
def sparse_search (docs : List (String × String)) (chunks : List ChunkRow)
    (scores : List ℚ) (top_k : Nat) : List SearchResult :=
  if chunks.isEmpty then []
  else
    ((top_indices scores top_k).filter (fun idx => decide (0 < scores.getD idx 0))).map
      (fun idx => mkSparseResult docs (chunks.getD idx default) (scores.getD idx 0))

/-- The filtered index list underlying `sparse_search`'s output. -/
def sparseKeptIndices (scores : List ℚ) (top_k : Nat) : List Nat :=
  (top_indices scores top_k).filter (fun idx => decide (0 < scores.getD idx 0))

theorem sparseKeptIndices_sorted (scores : List ℚ) (top_k : Nat) :
    (sparseKeptIndices scores top_k).Pairwise (scoreOrder scores) := by
  have hsorted : (List.insertionSort (scoreOrder scores)
      (List.range scores.length)).Pairwise (scoreOrder scores) :=
    List.sorted_insertionSort (scoreOrder scores) (List.range scores.length)
  exact List.Pairwise.sublist
    ((List.filter_sublist _).trans (List.take_sublist _ _)) hsorted

theorem sparseKeptIndices_nodup (scores : List ℚ) (top_k : Nat) :
    (sparseKeptIndices scores top_k).Nodup := by
  have hnd : (List.insertionSort (scoreOrder scores) (List.range scores.length)).Nodup :=
    ((List.perm_insertionSort (scoreOrder scores) _).symm).nodup
      (List.nodup_range scores.length)
  exact List.Nodup.sublist
    ((List.filter_sublist _).trans (List.take_sublist _ _)) hnd

/-- C8: `sparse_search` returns only strictly positively scored chunks, at
most `top_k` of them, in descending score order, with equal-score chunks in
corpus order (stable sort). -/
theorem sparse_search_spec (docs : List (String × String)) (chunks : List ChunkRow)
    (scores : List ℚ) (top_k : Nat) (hlen : scores.length = chunks.length) :
    (∀ r ∈ sparse_search docs chunks scores top_k, 0 < r.score) ∧
    (sparse_search docs chunks scores top_k).length ≤ top_k ∧
    (sparse_search docs chunks scores top_k).Pairwise (fun a b => b.score ≤ a.score) ∧
    (sparseKeptIndices scores top_k).Pairwise
      (fun i j => scores.getD i 0 = scores.getD j 0 → i < j) := by
  have hmono := sparseKeptIndices_sorted scores top_k
  have htie : (sparseKeptIndices scores top_k).Pairwise
      (fun i j => scores.getD i 0 = scores.getD j 0 → i < j) := by
    refine ((hmono.and (sparseKeptIndices_nodup scores top_k)).imp ?_)
    intro i j hij heq
    rcases hij with ⟨h | ⟨_, hle⟩, hne⟩
    · exact absurd heq (ne_of_gt h)
    · exact lt_of_le_of_ne hle hne
  have hform : sparse_search docs chunks scores top_k = [] ∨
      sparse_search docs chunks scores top_k =
        (sparseKeptIndices scores top_k).map
          (fun idx => mkSparseResult docs (chunks.getD idx default) (scores.getD idx 0)) := by
    rw [sparse_search]
    by_cases hch : chunks.isEmpty
    · exact Or.inl (if_pos hch)
    · exact Or.inr (if_neg hch)
  refine ⟨?_, ?_, ?_, htie⟩
  · intro r hr
    rcases hform with h | h
    · rw [h] at hr; exact absurd hr (List.not_mem_nil r)
    · rw [h] at hr
      simp only [List.mem_map] at hr
      obtain ⟨idx, hidx, hval⟩ := hr
      have hpos : (0 : ℚ) < scores.getD idx 0 :=
        of_decide_eq_true (List.mem_filter.mp hidx).2
      rw [← hval]
      exact hpos
  · rcases hform with h | h
    · rw [h]; exact Nat.zero_le _
    · rw [h, List.length_map]
      calc (sparseKeptIndices scores top_k).length
          ≤ (top_indices scores top_k).length := List.length_filter_le _ _
        _ ≤ top_k := by rw [top_indices, List.length_take]; exact Nat.min_le_left _ _
  · rcases hform with h | h
    · rw [h]; exact List.Pairwise.nil
    · rw [h]
      refine List.Pairwise.map _ ?_ hmono
      intro i j hij
      rcases hij with hlt | ⟨heq, _⟩
      · exact le_of_lt hlt
      · exact le_of_eq heq.symm

/-- Witness for `sparse_search_spec` on a three-chunk corpus with a tie. -/
theorem sparse_search_spec_witness :
    ((3 : ℚ) :: [2, 3]).length = ([⟨"c0", "d", "t0", none, none⟩,
        ⟨"c1", "d", "t1", none, none⟩, ⟨"c2", "d", "t2", none, none⟩] :
        List ChunkRow).length ∧
    ((∀ r ∈ sparse_search [] [⟨"c0", "d", "t0", none, none⟩,
        ⟨"c1", "d", "t1", none, none⟩, ⟨"c2", "d", "t2", none, none⟩] [3, 2, 3] 2,
        0 < r.score) ∧
      (sparse_search [] [⟨"c0", "d", "t0", none, none⟩,
        ⟨"c1", "d", "t1", none, none⟩, ⟨"c2", "d", "t2", none, none⟩] [3, 2, 3] 2).length ≤ 2 ∧
      (sparse_search [] [⟨"c0", "d", "t0", none, none⟩,
        ⟨"c1", "d", "t1", none, none⟩, ⟨"c2", "d", "t2", none, none⟩] [3, 2, 3] 2).Pairwise
        (fun a b => b.score ≤ a.score) ∧
      (sparseKeptIndices [3, 2, 3] 2).Pairwise
        (fun i j => ([3, 2, 3] : List ℚ).getD i 0 = ([3, 2, 3] : List ℚ).getD j 0 → i < j)) :=
  ⟨by decide, sparse_search_spec [] _ [3, 2, 3] 2 (by decide)⟩

/-! ### Context assembly and citations (`RAGService.build_context`) -/

/-- Python slice `s[:n]`. -/
def pySlice (s : String) (n : Nat) : String := String.mk (s.data.take n)

/-- `result.text[:200] + "..." if len(result.text) > 200 else result.text` -/
def textSnippet (text : String) : String :=
  if text.length > 200 then pySlice text 200 ++ "..." else text

/-- The `location` list: Python truthiness drops `None` and `0` page and
paragraph numbers alike. -/
def locationParts (r : SearchResult) : List String :=
  (match r.page_number with
   | some p => if p ≠ 0 then ["Page " ++ toString p] else []
   | none => []) ++
  (match r.paragraph_number with
   | some q => if q ≠ 0 then ["Paragraph " ++ toString q] else []
   | none => [])

/-- `", ".join(location) if location else "Unknown location"` -/
def locationStr (r : SearchResult) : String :=
  if (locationParts r).isEmpty then "Unknown location"
  else String.intercalate ", " (locationParts r)

/-- One `[Source i+1: name, location]\ntext` block of the context. -/
def contextEntry (i : Nat) (r : SearchResult) : String :=
  "[Source " ++ toString (i + 1) ++ ": " ++ r.document_name ++ ", " ++
    locationStr r ++ "]\n" ++ r.text

/-- The `Citation` constructed for one search result. -/
def mkCitation (r : SearchResult) : Citation :=
  { document_id := r.document_id, document_name := r.document_name,
    page_number := r.page_number, paragraph_number := r.paragraph_number,
    text_snippet := textSnippet r.text, relevance_score := r.score }

/-- `RAGService.build_context`: the joined context string and the citations. -/
def build_context (results : List SearchResult) : String × List Citation :=
  (String.intercalate "\n\n" (results.enum.map (fun ir => contextEntry ir.1 ir.2)),
   results.map mkCitation)

theorem length_pySlice (s : String) (n : Nat) :
    (pySlice s n).length = min n s.length := by
  show (s.data.take n).length = min n s.data.length
  exact List.length_take n s.data

/-- A 201-character text, on which the 200-character snippet bound fails. -/
def longResult : SearchResult :=
  { chunk_id := "c", document_id := "d", document_name := "doc",
    text := String.mk (List.replicate 201 'a'),
    page_number := none, paragraph_number := none, score := 1 }

set_option maxRecDepth 8000 in
/-- C6 counterexample: on a 201-character source text, `build_context` emits
a citation whose `text_snippet` is 203 characters long (the first 200
characters plus a three-character ellipsis), so the snippet length is not
bounded by 200. -/
theorem citation_snippet_claim_false :
    ¬ (∀ c ∈ (build_context [longResult]).2, c.text_snippet.length ≤ 200) := by
  intro h
  have hm : mkCitation longResult ∈ (build_context [longResult]).2 :=
    List.mem_singleton.mpr rfl
  have hle := h _ hm
  have hlenText : longResult.text.length = 201 := by
    show (List.replicate 201 'a').length = 201
    exact List.length_replicate 201 'a'
  have h203 : (mkCitation longResult).text_snippet.length = 203 := by
    show (textSnippet longResult.text).length = 203
    rw [textSnippet, if_pos (by rw [hlenText]; norm_num),
      String.length_append, length_pySlice, hlenText]
    rfl
  rw [h203] at hle
  omega

/-- C6 amended: every citation built by `build_context` carries a
`text_snippet` of at most 203 characters — the source text itself when it has
at most 200 characters, else its first 200 characters plus the
three-character ellipsis `"..."`. -/
theorem citation_snippet_bounded (results : List SearchResult) :
    ∀ c ∈ (build_context results).2,
      c.text_snippet.length ≤ 203 ∧
      (c.text_snippet.length ≤ 200 ∨
        ∃ r ∈ results, 200 < r.text.length ∧
          c.text_snippet = pySlice r.text 200 ++ "...") := by
  intro c hc
  simp only [build_context, List.mem_map] at hc
  obtain ⟨r, hr, hval⟩ := hc
  subst hval
  have hsnip : (mkCitation r).text_snippet = textSnippet r.text := rfl
  rw [hsnip]
  by_cases hlen : r.text.length > 200
  · have heq : textSnippet r.text = pySlice r.text 200 ++ "..." := by
      rw [textSnippet, if_pos hlen]
    rw [heq]
    have h203 : (pySlice r.text 200 ++ "...").length = 203 := by
      rw [String.length_append, length_pySlice, Nat.min_eq_left (le_of_lt hlen)]
      rfl
    exact ⟨le_of_eq h203, Or.inr ⟨r, hr, hlen, rfl⟩⟩
  · have heq : textSnippet r.text = r.text := by
      rw [textSnippet, if_neg hlen]
    rw [heq]
    push_neg at hlen
    exact ⟨hlen.trans (by norm_num), Or.inl hlen⟩

/-- Witness for `citation_snippet_bounded` on a short text. -/
theorem citation_snippet_bounded_witness :
    (mkCitation (wres "a")) ∈ (build_context [wres "a"]).2 ∧
    ((mkCitation (wres "a")).text_snippet.length ≤ 203 ∧
      ((mkCitation (wres "a")).text_snippet.length ≤ 200 ∨
        ∃ r ∈ [wres "a"], 200 < r.text.length ∧
          (mkCitation (wres "a")).text_snippet = pySlice r.text 200 ++ "...")) :=
  ⟨by simp [build_context], citation_snippet_bounded [wres "a"] _ (by simp [build_context])⟩

/-! ### `SemanticCache` (`cache.py`) -/

/-- One cached record (`cache_data`); the wall-clock `cached_at` timestamp is
informational only and is not modelled. -/
structure CacheEntry where
  question : String
  answer : String
  sources : List String
  metadata : List (String × String)
  deriving DecidableEq, Repr

/-- The Redis state `SemanticCache` uses: the string keyspace holding the
serialized entries, and the `cache_index` hash mapping cache keys to stored
embeddings.  `hset` appends new fields, so the association list is ordered
oldest-insertion first.  JSON round-trips and entry TTL are abstracted away:
every claim reads back immediately after writing. -/
structure CacheState where
  store : List (String × CacheEntry)
  index : List (String × List ℚ)
  deriving DecidableEq, Repr

/-- `SemanticCache` configuration, with external dependencies as parameters:
`shaHash` abstracts the truncated sha256 hex digest of `_compute_hash`, and
`sim` the numpy float `_cosine_similarity`. -/
structure CacheConfig where
  shaHash : String → String
  sim : List ℚ → List ℚ → ℚ
  similarity_threshold : ℚ
  max_cache_size : Nat

/-- `f"{self.cache_prefix}{question_hash}"` with `cache_prefix =
"semantic_cache:"` and `question_hash = _compute_hash(question)`. -/
def cacheKeyOf (cfg : CacheConfig) (question : String) : String :=
  "semantic_cache:" ++ cfg.shaHash (pyNormalize question)

/-- A cache hit as `get` returns it: the entry plus the `cache_hit` tag, and
the `similarity` field that only semantic hits carry. -/
structure CacheHit where
  entry : CacheEntry
  tag : String
  similarity : Option ℚ
  deriving DecidableEq, Repr

/-- The scan loop of `_semantic_lookup`: walk the `cache_index` fields,
keeping the strictly best similarity at or above the threshold
(`similarity > best_similarity and similarity >= self.similarity_threshold`),
starting from `(None, 0.0)`. -/
def semanticScan (cfg : CacheConfig) (query : List ℚ) :
    List (String × List ℚ) → Option String × ℚ → Option String × ℚ
  | [], best => best
  | kv :: rest, best =>
    let s := cfg.sim query kv.2
    semanticScan cfg query rest
      (if best.2 < s ∧ cfg.similarity_threshold ≤ s then (some kv.1, s) else best)

/-- The greatest similarity the scan can see (with the loop's `0.0` floor). -/
def bestSim (cfg : CacheConfig) (query : List ℚ)
    (entries : List (String × List ℚ)) : ℚ :=
  (entries.map (fun kv => cfg.sim query kv.2)).foldl max 0

/-- `SemanticCache._semantic_lookup`. -/
def semanticLookup (cfg : CacheConfig) (st : CacheState) (query : List ℚ) :
    Option CacheHit :=
  if st.index.isEmpty then none
  else
    match semanticScan cfg query st.index (none, 0) with
    | (some key, best_similarity) =>
      if key.isEmpty then none
      else
        match dictGet st.store key with
        | some e => some ⟨e, "semantic", some best_similarity⟩
        | none => none
    | (none, _) => none

/-- `SemanticCache._prune_if_needed`: when `cache_index` holds more than
`max_cache_size` fields, delete the first `int(size * 0.1)` keys (oldest
insertion order) from both the keyspace and the index.  `int(size * 0.1)`
equals `size / 10` at every realistic size. -/
def pruneIfNeeded (cfg : CacheConfig) (st : CacheState) : CacheState :=
  let cache_size := st.index.length
  if cfg.max_cache_size < cache_size then
    let keys := (st.index.map Prod.fst).take (cache_size / 10)
    { store := st.store.filter (fun kv => decide (kv.1 ∉ keys)),
      index := st.index.filter (fun kv => decide (kv.1 ∉ keys)) }
  else st

/-- `SemanticCache.set`: store the entry under its exact-hash key, register
the embedding in `cache_index` when one is supplied (Python truthiness: an
empty embedding list counts as absent, `metadata or {}` defaults to empty),
then prune. -/
def cacheSet (cfg : CacheConfig) (st : CacheState) (question answer : String)
    (sources : List String) (embedding : Option (List ℚ))
    (metadata : Option (List (String × String))) : CacheState :=
  let key := cacheKeyOf cfg question
  let entry : CacheEntry := ⟨question, answer, sources, metadata.getD []⟩
  let st1 : CacheState := { st with store := dictSet st.store key entry }
  let st2 : CacheState :=
    match embedding with
    | some emb =>
      if emb.isEmpty then st1
      else { st1 with index := dictSet st1.index key emb }
    | none => st1
  pruneIfNeeded cfg st2

/-- `SemanticCache.get`: exact-hash lookup first; the semantic path only
runs when no exact hit and a (nonempty) embedding is supplied. -/
def cacheGet (cfg : CacheConfig) (st : CacheState) (question : String)
    (embedding : Option (List ℚ)) : Option CacheHit :=
  match dictGet st.store (cacheKeyOf cfg question) with
  | some e => some ⟨e, "exact", none⟩
  | none =>
    match embedding with
    | some emb => if emb.isEmpty then none else semanticLookup cfg st emb
    | none => none

/-- C3: writing `set(q, answer, sources)` (no embedding) and then reading
`get(q', None)` for any `q'` that normalizes like `q` (same text up to letter
case and leading/trailing whitespace) returns the cached entry tagged
`"exact"`.  The index-size hypothesis is the invariant the cache maintains:
pruning never lets `cache_index` stay above `max_cache_size`. -/
theorem cache_exact_roundtrip (cfg : CacheConfig) (st : CacheState)
    (q q' answer : String) (sources : List String)
    (hnorm : pyNormalize q' = pyNormalize q)
    (hsize : st.index.length ≤ cfg.max_cache_size) :
    cacheGet cfg (cacheSet cfg st q answer sources none none) q' none =
      some ⟨⟨q, answer, sources, []⟩, "exact", none⟩ := by
  have hkey : cacheKeyOf cfg q' = cacheKeyOf cfg q := by
    rw [cacheKeyOf, cacheKeyOf, hnorm]
  have hset : cacheSet cfg st q answer sources none none =
      pruneIfNeeded cfg
        { st with store := dictSet st.store (cacheKeyOf cfg q) ⟨q, answer, sources, []⟩ } :=
    rfl
  have hprune : pruneIfNeeded cfg
      { st with store := dictSet st.store (cacheKeyOf cfg q) ⟨q, answer, sources, []⟩ } =
      { st with store := dictSet st.store (cacheKeyOf cfg q) ⟨q, answer, sources, []⟩ } := by
    rw [pruneIfNeeded]
    exact if_neg (not_lt.mpr hsize)
  rw [cacheGet, hkey, hset, hprune]
  show (match dictGet (dictSet st.store (cacheKeyOf cfg q) ⟨q, answer, sources, []⟩)
      (cacheKeyOf cfg q) with
    | some e => some (⟨e, "exact", none⟩ : CacheHit)
    | none => match (none : Option (List ℚ)) with
      | some emb => if emb.isEmpty then none else
          semanticLookup cfg
            { st with store := dictSet st.store (cacheKeyOf cfg q) ⟨q, answer, sources, []⟩ } emb
      | none => none) = some ⟨⟨q, answer, sources, []⟩, "exact", none⟩
  rw [dictGet_dictSet_self]

/-- Witness for `cache_exact_roundtrip`: `set(" What Is RAG? ", ...)` then
`get("what is rag?")` on an empty cache. -/
theorem cache_exact_roundtrip_witness :
    pyNormalize "what is rag?" = pyNormalize " What Is RAG? " ∧
    (⟨[], []⟩ : CacheState).index.length ≤ 100 ∧
    cacheGet ⟨id, fun _ _ => 0, 92/100, 100⟩
        (cacheSet ⟨id, fun _ _ => 0, 92/100, 100⟩ ⟨[], []⟩ " What Is RAG? " "an answer"
          ["s1"] none none)
        "what is rag?" none =
      some ⟨⟨" What Is RAG? ", "an answer", ["s1"], []⟩, "exact", none⟩ :=
  ⟨by decide, by decide,
    cache_exact_roundtrip ⟨id, fun _ _ => 0, 92/100, 100⟩ ⟨[], []⟩
      " What Is RAG? " "what is rag?" "an answer" ["s1"] (by decide) (by decide)⟩

theorem dictGet_filter_keys {α : Type} (d : List (String × α)) (keys : List String)
    (k : String) :
    dictGet (d.filter (fun kv => decide (kv.1 ∉ keys))) k =
      if k ∈ keys then none else dictGet d k := by
  induction d with
  | nil => simp [dictGet]
  | cons kv rest ih =>
    by_cases hmem : kv.1 ∈ keys
    · rw [List.filter_cons, if_neg (by simp [hmem]), ih]
      by_cases hk : k ∈ keys
      · simp [hk]
      · have hne : ¬ kv.1 = k := fun h => hk (h ▸ hmem)
        simp [hk, dictGet, hne]
    · rw [List.filter_cons, if_pos (by simp [hmem])]
      by_cases hk1 : kv.1 = k
      · have hk : k ∉ keys := hk1 ▸ hmem
        simp [dictGet, hk1, hk]
      · rw [dictGet, if_neg hk1, ih, dictGet, if_neg hk1]

theorem filter_notin_append_eq {α : Type} (l1 l2 : List (String × α)) (ks : List String)
    (h1 : ∀ kv ∈ l1, kv.1 ∈ ks) (h2 : ∀ kv ∈ l2, kv.1 ∉ ks) :
    (l1 ++ l2).filter (fun kv => decide (kv.1 ∉ ks)) = l2 := by
  rw [List.filter_append]
  have e1 : l1.filter (fun kv => decide (kv.1 ∉ ks)) = [] := by
    rw [List.filter_eq_nil_iff]
    intro kv hkv
    simp only [decide_eq_true_eq, not_not]
    exact h1 kv hkv
  have e2 : l2.filter (fun kv => decide (kv.1 ∉ ks)) = l2 := by
    rw [List.filter_eq_self]
    intro kv hkv
    simp only [decide_eq_true_eq]
    exact h2 kv hkv
  rw [e1, e2, List.nil_append]

theorem filter_keys_eq_drop {α : Type} (l : List (String × α)) (n : Nat)
    (h : (l.map Prod.fst).Nodup) :
    l.filter (fun kv => decide (kv.1 ∉ (l.map Prod.fst).take n)) = l.drop n := by
  have hkeys : (l.map Prod.fst).take n = (l.take n).map Prod.fst :=
    (List.map_take Prod.fst l n).symm
  have hdisj : List.Disjoint ((l.take n).map Prod.fst) ((l.drop n).map Prod.fst) := by
    apply List.disjoint_of_nodup_append
    rw [← List.map_append, List.take_append_drop]
    exact h
  have hstep : l.filter (fun kv => decide (kv.1 ∉ (l.map Prod.fst).take n)) =
      (l.take n ++ l.drop n).filter
        (fun kv => decide (kv.1 ∉ (l.map Prod.fst).take n)) := by
    rw [List.take_append_drop]
  rw [hstep]
  apply filter_notin_append_eq
  · intro kv hkv
    rw [hkeys]
    exact List.mem_map_of_mem Prod.fst hkv
  · intro kv hkv
    rw [hkeys]
    exact fun hmem => hdisj hmem (List.mem_map_of_mem Prod.fst hkv)

/-- C7: pruning removes exactly the oldest tenth.  When `cache_index` has at
most `max_cache_size` fields the state is untouched; when it has more, the
index loses precisely its first (oldest-inserted) `size / 10` fields, the
keyspace entries under those keys are deleted, and every other key's entry is
untouched. -/
theorem prune_spec (cfg : CacheConfig) (st : CacheState)
    (hnodup : (st.index.map Prod.fst).Nodup) :
    (st.index.length ≤ cfg.max_cache_size → pruneIfNeeded cfg st = st) ∧
    (cfg.max_cache_size < st.index.length →
      (pruneIfNeeded cfg st).index = st.index.drop (st.index.length / 10) ∧
      (∀ k ∈ (st.index.map Prod.fst).take (st.index.length / 10),
        dictGet (pruneIfNeeded cfg st).store k = none) ∧
      (∀ k, k ∉ (st.index.map Prod.fst).take (st.index.length / 10) →
        dictGet (pruneIfNeeded cfg st).store k = dictGet st.store k)) := by
  constructor
  · intro hle
    rw [pruneIfNeeded]
    exact if_neg (not_lt.mpr hle)
  · intro hgt
    have hstep : pruneIfNeeded cfg st =
        { store := st.store.filter (fun kv =>
            decide (kv.1 ∉ (st.index.map Prod.fst).take (st.index.length / 10))),
          index := st.index.filter (fun kv =>
            decide (kv.1 ∉ (st.index.map Prod.fst).take (st.index.length / 10))) } := by
      rw [pruneIfNeeded]
      exact if_pos hgt
    refine ⟨?_, ?_, ?_⟩
    · rw [hstep]
      exact filter_keys_eq_drop st.index _ hnodup
    · intro k hk
      rw [hstep]
      show dictGet (st.store.filter _) k = none
      rw [dictGet_filter_keys]
      exact if_pos hk
    · intro k hk
      rw [hstep]
      show dictGet (st.store.filter _) k = dictGet st.store k
      rw [dictGet_filter_keys]
      exact if_neg hk

/-- Witness for `prune_spec`: an 11-field index over a `max_cache_size` of
10 loses exactly its oldest field. -/
theorem prune_spec_witness :
    ((([("k0", [(0 : ℚ)]), ("k1", [1]), ("k2", [2]), ("k3", [3]), ("k4", [4]),
        ("k5", [5]), ("k6", [6]), ("k7", [7]), ("k8", [8]), ("k9", [9]),
        ("k10", [10])] : List (String × List ℚ)).map Prod.fst).Nodup) ∧
    ((let st : CacheState := ⟨[("k0", ⟨"q", "a", [], []⟩)],
        [("k0", [(0 : ℚ)]), ("k1", [1]), ("k2", [2]), ("k3", [3]), ("k4", [4]),
          ("k5", [5]), ("k6", [6]), ("k7", [7]), ("k8", [8]), ("k9", [9]),
          ("k10", [10])]⟩
      let cfg : CacheConfig := ⟨id, fun _ _ => 0, 92/100, 10⟩
      (st.index.length ≤ cfg.max_cache_size → pruneIfNeeded cfg st = st) ∧
      (cfg.max_cache_size < st.index.length →
        (pruneIfNeeded cfg st).index = st.index.drop (st.index.length / 10) ∧
        (∀ k ∈ (st.index.map Prod.fst).take (st.index.length / 10),
          dictGet (pruneIfNeeded cfg st).store k = none) ∧
        (∀ k, k ∉ (st.index.map Prod.fst).take (st.index.length / 10) →
          dictGet (pruneIfNeeded cfg st).store k = dictGet st.store k)))) :=
  ⟨by decide, prune_spec _ _ (by decide)⟩

theorem le_foldl_max (x : ℚ) (l : List ℚ) : x ≤ l.foldl max x := by
  induction l generalizing x with
  | nil => exact le_refl x
  | cons a rest ih => exact le_trans (le_max_left x a) (ih (max x a))

theorem mem_le_foldl_max (x : ℚ) (l : List ℚ) (a : ℚ) (ha : a ∈ l) :
    a ≤ l.foldl max x := by
  induction l generalizing x with
  | nil => cases ha
  | cons b rest ih =>
    rcases List.mem_cons.mp ha with h | h
    · subst h
      exact le_trans (le_max_right x a) (le_foldl_max _ _)
    · exact ih _ h

theorem sim_le_bestSim (cfg : CacheConfig) (q : List ℚ)
    (entries : List (String × List ℚ)) (kv : String × List ℚ) (h : kv ∈ entries) :
    cfg.sim q kv.2 ≤ bestSim cfg q entries :=
  mem_le_foldl_max 0 _ _ (List.mem_map_of_mem (fun kv => cfg.sim q kv.2) h)

theorem bestSim_append_single (cfg : CacheConfig) (q : List ℚ)
    (l : List (String × List ℚ)) (kv : String × List ℚ) :
    bestSim cfg q (l ++ [kv]) = max (bestSim cfg q l) (cfg.sim q kv.2) := by
  rw [bestSim, List.map_append, List.foldl_append]
  rfl

theorem semanticScan_append (cfg : CacheConfig) (q : List ℚ)
    (l1 l2 : List (String × List ℚ)) (acc : Option String × ℚ) :
    semanticScan cfg q (l1 ++ l2) acc =
      semanticScan cfg q l2 (semanticScan cfg q l1 acc) := by
  induction l1 generalizing acc with
  | nil => rfl
  | cons kv rest ih =>
    rw [List.cons_append]
    show semanticScan cfg q (rest ++ l2) _ = _
    rw [ih]
    rfl

theorem find?_append_of_all_false {α : Type} (p : α → Bool) (l1 l2 : List α)
    (h : ∀ a ∈ l1, p a = false) : (l1 ++ l2).find? p = l2.find? p := by
  induction l1 with
  | nil => rfl
  | cons a rest ih =>
    have hpa := h a (List.mem_cons_self a rest)
    rw [List.cons_append, List.find?, hpa]
    exact ih (fun b hb => h b (List.mem_cons_of_mem a hb))

theorem find?_append_of_some {α : Type} (p : α → Bool) (l1 l2 : List α) (a : α)
    (h : l1.find? p = some a) : (l1 ++ l2).find? p = some a := by
  induction l1 with
  | nil => cases h
  | cons b rest ih =>
    cases hp : p b with
    | false =>
      rw [List.find?, hp] at h
      rw [List.cons_append, List.find?, hp]
      exact ih h
    | true =>
      rw [List.find?, hp] at h
      rw [List.cons_append, List.find?, hp]
      exact h

/-- Characterization of the `_semantic_lookup` scan loop: below-threshold
maxima leave the accumulator at `(None, 0.0)`; otherwise the scan lands on
the first entry attaining the maximal similarity. -/
theorem semanticScan_spec (cfg : CacheConfig) (q : List ℚ)
    (hthr : 0 < cfg.similarity_threshold) (entries : List (String × List ℚ)) :
    (bestSim cfg q entries < cfg.similarity_threshold →
      semanticScan cfg q entries (none, 0) = (none, 0)) ∧
    (cfg.similarity_threshold ≤ bestSim cfg q entries →
      ∃ kv, kv ∈ entries ∧
        entries.find?
          (fun kv0 => decide (cfg.sim q kv0.2 = bestSim cfg q entries)) = some kv ∧
        semanticScan cfg q entries (none, 0) =
          (some kv.1, bestSim cfg q entries)) := by
  induction entries using List.reverseRecOn with
  | nil =>
    refine ⟨fun _ => rfl, fun habs => absurd habs ?_⟩
    show ¬ cfg.similarity_threshold ≤ (0 : ℚ)
    exact not_le.mpr hthr
  | append_singleton l kv IH =>
    have hb := bestSim_append_single cfg q l kv
    have hscan : semanticScan cfg q (l ++ [kv]) (none, 0) =
        (let s := cfg.sim q kv.2
         if (semanticScan cfg q l (none, 0)).2 < s ∧ cfg.similarity_threshold ≤ s
         then (some kv.1, s) else semanticScan cfg q l (none, 0)) := by
      rw [semanticScan_append]
      rfl
    have hallle : ∀ a ∈ l, cfg.sim q a.2 ≤ bestSim cfg q l :=
      fun a ha => sim_le_bestSim cfg q l a ha
    by_cases hM : bestSim cfg q l < cfg.similarity_threshold
    · have hl := IH.1 hM
      by_cases hs : cfg.similarity_threshold ≤ cfg.sim q kv.2
      · have hres : semanticScan cfg q (l ++ [kv]) (none, 0) =
            (some kv.1, cfg.sim q kv.2) := by
          rw [hscan, hl]
          exact if_pos ⟨lt_of_lt_of_le hthr hs, hs⟩
        have hmax : max (bestSim cfg q l) (cfg.sim q kv.2) = cfg.sim q kv.2 :=
          max_eq_right (le_of_lt (lt_of_lt_of_le hM hs))
        constructor
        · intro hlt
          rw [hb, hmax] at hlt
          exact absurd hs (not_le.mpr hlt)
        · intro _
          refine ⟨kv, List.mem_append_right l (List.mem_singleton.mpr rfl), ?_, ?_⟩
          · rw [hb, hmax]
            have hfalse : ∀ a ∈ l,
                (fun kv0 => decide (cfg.sim q kv0.2 = cfg.sim q kv.2)) a = false := by
              intro a ha
              apply decide_eq_false
              have : cfg.sim q a.2 < cfg.sim q kv.2 :=
                lt_of_le_of_lt (hallle a ha) (lt_of_lt_of_le hM hs)
              exact ne_of_lt this
            rw [find?_append_of_all_false _ _ _ hfalse]
            simp [List.find?]
          · rw [hres, hb, hmax]
      · have hres : semanticScan cfg q (l ++ [kv]) (none, 0) = (none, 0) := by
          rw [hscan, hl]
          exact if_neg (fun hc => hs hc.2)
        have hmaxlt : max (bestSim cfg q l) (cfg.sim q kv.2) <
            cfg.similarity_threshold := max_lt hM (lt_of_not_le hs)
        constructor
        · intro _
          exact hres
        · intro hge
          rw [hb] at hge
          exact absurd hge (not_le.mpr hmaxlt)
    · push_neg at hM
      obtain ⟨kv0, hkv0mem, hfind, hscanl⟩ := IH.2 hM
      by_cases hs : bestSim cfg q l < cfg.sim q kv.2
      · have hres : semanticScan cfg q (l ++ [kv]) (none, 0) =
            (some kv.1, cfg.sim q kv.2) := by
          rw [hscan, hscanl]
          exact if_pos ⟨hs, le_of_lt (lt_of_le_of_lt hM hs)⟩
        have hmax : max (bestSim cfg q l) (cfg.sim q kv.2) = cfg.sim q kv.2 :=
          max_eq_right (le_of_lt hs)
        constructor
        · intro hlt
          rw [hb, hmax] at hlt
          exact absurd (le_of_lt (lt_of_le_of_lt hM hs)) (not_le.mpr hlt)
        · intro _
          refine ⟨kv, List.mem_append_right l (List.mem_singleton.mpr rfl), ?_, ?_⟩
          · rw [hb, hmax]
            have hfalse : ∀ a ∈ l,
                (fun kv0 => decide (cfg.sim q kv0.2 = cfg.sim q kv.2)) a = false := by
              intro a ha
              apply decide_eq_false
              exact ne_of_lt (lt_of_le_of_lt (hallle a ha) hs)
            rw [find?_append_of_all_false _ _ _ hfalse]
            simp [List.find?]
          · rw [hres, hb, hmax]
      · have hres : semanticScan cfg q (l ++ [kv]) (none, 0) =
            (some kv0.1, bestSim cfg q l) := by
          rw [hscan, hscanl]
          exact if_neg (fun hc => hs hc.1)
        have hmax : max (bestSim cfg q l) (cfg.sim q kv.2) = bestSim cfg q l :=
          max_eq_left (le_of_not_lt hs)
        constructor
        · intro hlt
          rw [hb, hmax] at hlt
          exact absurd hM (not_le.mpr hlt)
        · intro _
          refine ⟨kv0, List.mem_append_left _ hkv0mem, ?_, ?_⟩
          · rw [hb, hmax]
            exact find?_append_of_some _ _ _ _ hfind
          · rw [hres, hb, hmax]

/-- C4: on the semantic path, `_semantic_lookup` scans every stored
embedding; when the best cosine similarity reaches the threshold it returns
the first entry attaining it, tagged `"semantic"` with that similarity, and
when every stored embedding falls below the threshold it misses.  The
hypotheses say the index is well-formed: every indexed key is nonempty and
still has its entry in the keyspace. -/
theorem semantic_lookup_spec (cfg : CacheConfig) (st : CacheState) (query : List ℚ)
    (hthr : 0 < cfg.similarity_threshold)
    (hkeys : ∀ kv ∈ st.index, kv.1.isEmpty = false ∧ ∃ e, dictGet st.store kv.1 = some e) :
    (bestSim cfg query st.index < cfg.similarity_threshold →
      semanticLookup cfg st query = none) ∧
    (cfg.similarity_threshold ≤ bestSim cfg query st.index →
      ∃ kv e, kv ∈ st.index ∧
        st.index.find?
          (fun kv0 => decide (cfg.sim query kv0.2 = bestSim cfg query st.index)) = some kv ∧
        dictGet st.store kv.1 = some e ∧
        semanticLookup cfg st query =
          some ⟨e, "semantic", some (bestSim cfg query st.index)⟩) := by
  by_cases hemp : st.index.isEmpty
  · have hnil : st.index = [] := List.isEmpty_iff.mp hemp
    constructor
    · intro _
      rw [semanticLookup, if_pos hemp]
    · intro hge
      rw [hnil] at hge
      exact absurd hge (not_le.mpr hthr)
  · have hspec := semanticScan_spec cfg query hthr st.index
    constructor
    · intro hlt
      rw [semanticLookup, if_neg hemp, hspec.1 hlt]
    · intro hge
      obtain ⟨kv, hkvmem, hfind, hscan⟩ := hspec.2 hge
      obtain ⟨hne, e, hstore⟩ := hkeys kv hkvmem
      refine ⟨kv, e, hkvmem, hfind, hstore, ?_⟩
      rw [semanticLookup, if_neg hemp, hscan]
      show (if kv.1.isEmpty then none else _) = _
      rw [hne]
      show (match dictGet st.store kv.1 with
        | some e => some (⟨e, "semantic", some (bestSim cfg query st.index)⟩ : CacheHit)
        | none => none) = _
      rw [hstore]

/-- The default 0.92 similarity threshold as a reduced rational (kept in
lowest terms so that concrete comparisons evaluate). -/
def thr92 : ℚ := ⟨23, 25, by norm_num, by norm_num⟩

/-- Configuration used by the cache witnesses: identity hash, a similarity
that recognizes the stored embeddings `[1]` (0.95) and `[2]` (0.80),
threshold 0.92. -/
def wcfg4 : CacheConfig :=
  ⟨id, fun _ b => if b = [1] then 95/100 else 80/100, thr92, 10000⟩

/-- Cache state used by the C4 witness: two indexed entries. -/
def wst4 : CacheState :=
  ⟨[("semantic_cache:x", ⟨"qx", "ax", [], []⟩),
    ("semantic_cache:y", ⟨"qy", "ay", [], []⟩)],
   [("semantic_cache:x", [1]), ("semantic_cache:y", [2])]⟩

/-- Witness for `semantic_lookup_spec`: similarity 0.95 versus 0.80 under
threshold 0.92. -/
theorem semantic_lookup_spec_witness :
    ((0 : ℚ) < wcfg4.similarity_threshold) ∧
    ((bestSim wcfg4 [9] wst4.index < wcfg4.similarity_threshold →
      semanticLookup wcfg4 wst4 [9] = none) ∧
    (wcfg4.similarity_threshold ≤ bestSim wcfg4 [9] wst4.index →
      ∃ kv e, kv ∈ wst4.index ∧
        wst4.index.find?
          (fun kv0 => decide (wcfg4.sim [9] kv0.2 = bestSim wcfg4 [9] wst4.index)) = some kv ∧
        dictGet wst4.store kv.1 = some e ∧
        semanticLookup wcfg4 wst4 [9] =
          some ⟨e, "semantic", some (bestSim wcfg4 [9] wst4.index)⟩)) := by
  have hkeys : ∀ kv ∈ wst4.index,
      kv.1.isEmpty = false ∧ ∃ e, dictGet wst4.store kv.1 = some e := by
    intro kv hkv
    have hkv' : kv ∈ [("semantic_cache:x", [(1 : ℚ)]), ("semantic_cache:y", [2])] := hkv
    rcases List.mem_cons.mp hkv' with h | h
    · subst h
      exact ⟨rfl, ⟨"qx", "ax", [], []⟩, rfl⟩
    · rcases List.mem_cons.mp h with h2 | h2
      · subst h2
        exact ⟨rfl, ⟨"qy", "ay", [], []⟩, rfl⟩
      · cases h2
  exact ⟨by decide, semantic_lookup_spec wcfg4 wst4 [9] (by decide) hkeys⟩

/-- Exact-match similarity (1 on the identical embedding, else 0) with the
default 0.92 threshold; used for the C10 scenario. -/
def cfgX : CacheConfig :=
  ⟨id, fun a b => if a = b then 1 else 0, thr92, 10000⟩

/-- State after `set("q", "a1", [], embedding=[1])` followed by
`set("q", "a2", [])` — the second write carries no embedding — starting from
an empty cache. -/
def stX : CacheState :=
  cacheSet cfgX (cacheSet cfgX ⟨[], []⟩ "q" "a1" [] (some [1]) none)
    "q" "a2" [] none none

/-- C10 counterexample: the entry written by the second `set` — the one
without an embedding — is returned by `_semantic_lookup`, because the first
write left a stale embedding in `cache_index` pointing at the shared cache
key; that key also still occupies an index slot, so the entry is counted by
the size measurement pruning uses. -/
theorem stale_embedding_reaches_unembedded_entry :
    semanticLookup cfgX stX [1] =
      some ⟨⟨"q", "a2", [], []⟩, "semantic", some 1⟩ ∧
    cacheKeyOf cfgX "q" ∈ stX.index.map Prod.fst := by decide

theorem semanticScan_fst_mem (cfg : CacheConfig) (q : List ℚ) :
    ∀ (entries : List (String × List ℚ)) (acc : Option String × ℚ) (k : String),
      (semanticScan cfg q entries acc).1 = some k →
      acc.1 = some k ∨ k ∈ entries.map Prod.fst := by
  intro entries
  induction entries with
  | nil => exact fun acc k h => Or.inl h
  | cons kv rest ih =>
    intro acc k h
    have h' : (semanticScan cfg q rest
        (if acc.2 < cfg.sim q kv.2 ∧ cfg.similarity_threshold ≤ cfg.sim q kv.2
         then (some kv.1, cfg.sim q kv.2) else acc)).1 = some k := h
    rcases ih _ _ h' with hacc | hmem
    · by_cases hc : acc.2 < cfg.sim q kv.2 ∧ cfg.similarity_threshold ≤ cfg.sim q kv.2
      · rw [if_pos hc] at hacc
        right
        rw [List.map_cons, ← Option.some.inj hacc]
        exact List.mem_cons_self _ _
      · rw [if_neg hc] at hacc
        exact Or.inl hacc
    · right
      rw [List.map_cons]
      exact List.mem_cons_of_mem _ hmem

theorem semanticLookup_entry_source (cfg : CacheConfig) (st : CacheState)
    (query : List ℚ) (hit : CacheHit)
    (h : semanticLookup cfg st query = some hit) :
    ∃ k, k ∈ st.index.map Prod.fst ∧ dictGet st.store k = some hit.entry := by
  rw [semanticLookup] at h
  by_cases hemp : st.index.isEmpty
  · rw [if_pos hemp] at h
    cases h
  · rw [if_neg hemp] at h
    cases hscan : semanticScan cfg query st.index (none, 0) with
    | mk fst snd =>
      rw [hscan] at h
      cases fst with
      | none => cases h
      | some key =>
        have h2 : (if key.isEmpty then none
            else match dictGet st.store key with
              | some e => some (⟨e, "semantic", some snd⟩ : CacheHit)
              | none => none) = some hit := h
        by_cases hkey : key.isEmpty
        · rw [if_pos hkey] at h2
          cases h2
        · rw [if_neg hkey] at h2
          cases hget : dictGet st.store key with
          | none =>
            rw [hget] at h2
            cases h2
          | some e =>
            rw [hget] at h2
            have he : hit = ⟨e, "semantic", some snd⟩ := (Option.some.inj h2).symm
            refine ⟨key, ?_, ?_⟩
            · have hsrc := semanticScan_fst_mem cfg query st.index (none, 0) key
                (by rw [hscan])
              rcases hsrc with habs | hmem
              · cases habs
              · exact hmem
            · rw [hget, he]

theorem prune_index_sublist (cfg : CacheConfig) (s : CacheState) :
    (pruneIfNeeded cfg s).index.Sublist s.index := by
  rw [pruneIfNeeded]
  split
  · exact List.filter_sublist s.index
  · exact List.Sublist.refl s.index

theorem prune_store_get_of_unindexed (cfg : CacheConfig) (s : CacheState) (k : String)
    (hk : k ∉ s.index.map Prod.fst) :
    dictGet (pruneIfNeeded cfg s).store k = dictGet s.store k := by
  rw [pruneIfNeeded]
  split
  · show dictGet (s.store.filter _) k = _
    rw [dictGet_filter_keys]
    refine if_neg ?_
    intro hmem
    exact hk (List.mem_of_mem_take hmem)
  · rfl

/-- C10 amended: an entry written by `set` without an embedding whose cache
key is not already present in `cache_index` (i.e. no earlier embedded write
of the same normalized question) is reachable only via the exact-hash path:
its key never enters the index, the write adds nothing for size-based
pruning to count, the entry itself survives pruning, and any hit the
semantic path returns is served from an indexed key — never this one. -/
theorem unembedded_entry_isolation (cfg : CacheConfig) (st : CacheState)
    (q answer : String) (srcs : List String) (meta : Option (List (String × String)))
    (hkey : cacheKeyOf cfg q ∉ st.index.map Prod.fst) :
    cacheKeyOf cfg q ∉ (cacheSet cfg st q answer srcs none meta).index.map Prod.fst ∧
    (cacheSet cfg st q answer srcs none meta).index.Sublist st.index ∧
    dictGet (cacheSet cfg st q answer srcs none meta).store (cacheKeyOf cfg q) =
      some ⟨q, answer, srcs, meta.getD []⟩ ∧
    (∀ query hit,
      semanticLookup cfg (cacheSet cfg st q answer srcs none meta) query = some hit →
      ∃ k, k ∈ (cacheSet cfg st q answer srcs none meta).index.map Prod.fst ∧
        k ≠ cacheKeyOf cfg q ∧
        dictGet (cacheSet cfg st q answer srcs none meta).store k = some hit.entry) := by
  have hset : cacheSet cfg st q answer srcs none meta =
      pruneIfNeeded cfg
        ⟨dictSet st.store (cacheKeyOf cfg q) ⟨q, answer, srcs, meta.getD []⟩,
         st.index⟩ := rfl
  have hsub : (pruneIfNeeded cfg
      ⟨dictSet st.store (cacheKeyOf cfg q) ⟨q, answer, srcs, meta.getD []⟩,
       st.index⟩).index.Sublist st.index :=
    prune_index_sublist cfg _
  have hkeysub : ∀ k, k ∈ (pruneIfNeeded cfg
      ⟨dictSet st.store (cacheKeyOf cfg q) ⟨q, answer, srcs, meta.getD []⟩,
       st.index⟩).index.map Prod.fst → k ∈ st.index.map Prod.fst := by
    intro k hk
    exact (hsub.map Prod.fst).subset hk
  refine ⟨?_, ?_, ?_, ?_⟩
  · rw [hset]
    intro hmem
    exact hkey (hkeysub _ hmem)
  · rw [hset]
    exact hsub
  · rw [hset, prune_store_get_of_unindexed cfg
      ⟨dictSet st.store (cacheKeyOf cfg q) ⟨q, answer, srcs, meta.getD []⟩, st.index⟩
      (cacheKeyOf cfg q) hkey]
    exact dictGet_dictSet_self st.store _ _
  · intro query hit h
    rw [hset] at h
    obtain ⟨k, hkmem, hkget⟩ := semanticLookup_entry_source cfg _ query hit h
    refine ⟨k, by rw [hset]; exact hkmem, ?_, by rw [hset]; exact hkget⟩
    intro hkeq
    rw [hkeq] at hkmem
    exact hkey (hkeysub _ hkmem)

/-- Witness for `unembedded_entry_isolation`: one unembedded write on an
empty cache. -/
theorem unembedded_entry_isolation_witness :
    (cacheKeyOf cfgX "q" ∉ ((⟨[], []⟩ : CacheState)).index.map Prod.fst) ∧
    (cacheKeyOf cfgX "q" ∉
      (cacheSet cfgX ⟨[], []⟩ "q" "ans" [] none none).index.map Prod.fst ∧
    (cacheSet cfgX ⟨[], []⟩ "q" "ans" [] none none).index.Sublist
      ((⟨[], []⟩ : CacheState)).index ∧
    dictGet (cacheSet cfgX ⟨[], []⟩ "q" "ans" [] none none).store (cacheKeyOf cfgX "q") =
      some ⟨"q", "ans", [], []⟩ ∧
    (∀ query hit,
      semanticLookup cfgX (cacheSet cfgX ⟨[], []⟩ "q" "ans" [] none none) query = some hit →
      ∃ k, k ∈ (cacheSet cfgX ⟨[], []⟩ "q" "ans" [] none none).index.map Prod.fst ∧
        k ≠ cacheKeyOf cfgX "q" ∧
        dictGet (cacheSet cfgX ⟨[], []⟩ "q" "ans" [] none none).store k =
          some hit.entry)) :=
  ⟨by decide, unembedded_entry_isolation cfgX ⟨[], []⟩ "q" "ans" [] none (by decide)⟩

/-! ### The module-level response cache of `rag.py` (`_query_cache`) and the
`ask` orchestrator -/

/-- The response dict `ask` builds, returns, and caches. -/
structure RagResponse where
  answer : String
  citations : List Citation
  session_id : String
  qa_id : Option String
  latency_ms : ℤ
  model_name : String
  cached : Bool
  deriving DecidableEq, Repr

/-- One `_query_cache` slot: `{'response', 'timestamp', 'latency_ms'}`. -/
structure QueryCacheSlot where
  response : RagResponse
  timestamp : ℚ
  latency_ms : ℤ
  deriving DecidableEq, Repr

abbrev QueryCache : Type := List (String × QueryCacheSlot)

/-- `CACHE_TTL = 3600`. -/
def CACHE_TTL : ℚ := 3600

/-- `RAGService._get_cache_key`: the md5 hex digest of
`f"{user_id}:{question.lower().strip()}"`; `md5` abstracts the digest. -/
def getCacheKey (md5 : String → String) (question user_id : String) : String :=
  md5 (user_id ++ ":" ++ pyNormalize question)

/-- `RAGService.get_cached_response` read at wall-clock `now`: a fresh hit is
returned as a copy marked `cached=True, latency_ms=5`; an expired slot is
deleted.  The hit/miss statistics counters are telemetry and not modelled. -/
def get_cached_response (md5 : String → String) (now : ℚ) (qc : QueryCache)
    (question user_id : String) : Option RagResponse × QueryCache :=
  let key := getCacheKey md5 question user_id
  match dictGet qc key with
  | some slot =>
    if now - slot.timestamp < CACHE_TTL then
      (some { slot.response with cached := true, latency_ms := 5 }, qc)
    else (none, dictDel qc key)
  | none => (none, qc)

/-- `min(_query_cache.keys(), key=lambda k: _query_cache[k]['timestamp'])`:
the first key attaining the minimal timestamp, in insertion order. -/
def oldestKey : QueryCache → String → ℚ → String
  | [], best, _ => best
  | kv :: rest, best, bestTs =>
    if kv.2.timestamp < bestTs then oldestKey rest kv.1 kv.2.timestamp
    else oldestKey rest best bestTs

/-- `RAGService.cache_response` at wall-clock `now`: evict the oldest slot
when more than 1000 are held, then store the response under the caller's
key. -/
def cache_response (md5 : String → String) (now : ℚ) (qc : QueryCache)
    (question user_id : String) (response : RagResponse) : QueryCache :=
  let qc1 :=
    if 1000 < qc.length then
      match qc with
      | [] => qc
      | kv :: rest => dictDel qc (oldestKey rest kv.1 kv.2.timestamp)
    else qc
  dictSet qc1 (getCacheKey md5 question user_id) ⟨response, now, response.latency_ms⟩

/-- The fused list `hybrid_search` returns: `rrf_scores.values()` sorted by
descending fused score and truncated to `top_k`, each result carrying its
fused score.  (Only emptiness of this list matters to the claims below.) -/
def hybrid_search (alpha : ℚ) (top_k : Nat) (dense sparse : List SearchResult) :
    List SearchResult :=
  let scored := (rrf_scores alpha dense sparse).map Prod.snd
  ((List.insertionSort (fun a b : SearchResult × ℚ => b.2 < a.2) scored).take
    top_k).map (fun rs => { rs.1 with score := rs.2 })

/-- The `QAHistory` row `ask` persists. -/
structure QAHistoryRec where
  user_id : String
  session_id : String
  question : String
  answer : String
  citations : List Citation
  context_chunks : List String
  model_name : String
  latency_ms : ℤ
  deriving DecidableEq, Repr

/-- Observable outcome of one `ask` call: the returned response, the final
`_query_cache` state, the `QAHistory` rows added to the DB session, and
whether the generation call and the cache write ran. -/
structure AskEffects where
  response : RagResponse
  query_cache : QueryCache
  qa_written : List QAHistoryRec
  generator_called : Bool
  cache_written : Bool
  deriving Repr

/-- The fixed answer of the no-results short-circuit in `ask`. -/
def noDocsAnswer : String :=
  "I don\x27t have any documents to search through. Please upload some documents first."

/-- `RAGService.ask`, external pieces as parameters: `md5` the cache digest,
`generate` the Ollama call (question and context to answer), `rerankFn` the
cross-encoder `rerank` step, `new_session` and `new_qa_id` the fresh uuid and
DB row id, `model_name` the configured model, `now` and `elapsed_ms` the
clock readings, and `dense`/`sparse` the two retrieval lists that
`hybrid_search` fuses for this question. -/
def ask (md5 : String → String) (generate : String → String → String)
    (rerankFn : String → List SearchResult → Nat → List SearchResult)
    (new_session new_qa_id model_name : String) (now : ℚ) (elapsed_ms : ℤ)
    (qc : QueryCache) (question user_id : String) (session_id : Option String)
    (top_k : Nat) (alpha : ℚ) (dense sparse : List SearchResult) : AskEffects :=
  let sid := if (session_id.getD "").isEmpty then new_session
    else session_id.getD ""
  let cached := get_cached_response md5 now qc question user_id
  match cached.1 with
  | some c =>
    { response := { c with session_id := sid }, query_cache := cached.2,
      qa_written := [], generator_called := false, cache_written := false }
  | none =>
    let search_results := hybrid_search alpha 20 dense sparse
    if search_results.isEmpty then
      { response :=
          { answer := noDocsAnswer, citations := [], session_id := sid,
            qa_id := none, latency_ms := elapsed_ms, model_name := model_name,
            cached := false },
        query_cache := cached.2, qa_written := [], generator_called := false,
        cache_written := false }
    else
      let reranked := rerankFn question search_results top_k
      let ctx := build_context reranked
      let answer := generate question ctx.1
      let qa : QAHistoryRec := ⟨user_id, sid, question, answer, ctx.2,
        reranked.map SearchResult.chunk_id, model_name, elapsed_ms⟩
      let response : RagResponse := ⟨answer, ctx.2, sid, some new_qa_id,
        elapsed_ms, model_name, false⟩
      { response := response,
        query_cache := cache_response md5 now cached.2 question user_id response,
        qa_written := [qa], generator_called := true, cache_written := true }

/-- C5: when the response cache misses and both retrieval lists are empty
(the combined search before fusion returns nothing), `ask` returns the fixed
no-documents answer with empty citations, calls no generation, persists no
`QAHistory` row, and writes nothing to the response cache (the final cache
state is exactly the one the lookup step left). -/
theorem ask_no_results (md5 : String → String) (generate : String → String → String)
    (rerankFn : String → List SearchResult → Nat → List SearchResult)
    (new_session new_qa_id model_name : String) (now : ℚ) (elapsed_ms : ℤ)
    (qc : QueryCache) (question user_id : String) (session_id : Option String)
    (top_k : Nat) (alpha : ℚ)
    (hmiss : (get_cached_response md5 now qc question user_id).1 = none) :
    ask md5 generate rerankFn new_session new_qa_id model_name now elapsed_ms qc
      question user_id session_id top_k alpha [] [] =
    { response :=
        { answer := noDocsAnswer, citations := [],
          session_id := if (session_id.getD "").isEmpty then new_session
            else session_id.getD "",
          qa_id := none, latency_ms := elapsed_ms, model_name := model_name,
          cached := false },
      query_cache := (get_cached_response md5 now qc question user_id).2,
      qa_written := [], generator_called := false, cache_written := false } := by
  have hhyb : hybrid_search alpha 20 ([] : List SearchResult) [] = [] := rfl
  rw [ask]
  rw [hmiss]
  rfl

/-- Witness for `ask_no_results` on an empty cache and empty corpus. -/
theorem ask_no_results_witness :
    ((get_cached_response id 0 [] "q" "u").1 = none) ∧
    ask id (fun _ _ => "") (fun _ r _ => r) "sid-new" "qa-new" "llama" 0 7 []
      "q" "u" none 5 ⟨7, 10, by norm_num, by norm_num⟩ [] [] =
    { response :=
        { answer := noDocsAnswer, citations := [],
          session_id := if ((none : Option String).getD "").isEmpty then "sid-new"
            else (none : Option String).getD "",
          qa_id := none, latency_ms := 7, model_name := "llama", cached := false },
      query_cache := (get_cached_response id 0 [] "q" "u").2,
      qa_written := [], generator_called := false, cache_written := false } :=
  ⟨rfl, ask_no_results id (fun _ _ => "") (fun _ r _ => r) "sid-new" "qa-new"
    "llama" 0 7 [] "q" "u" none 5 ⟨7, 10, by norm_num, by norm_num⟩ rfl⟩

/-- C9: the per-user keying of the response cache isolates users.  With the
md5 digest modelled as injective, a response cached for `(question, u1)` can
never surface in a lookup for `(question, u2)` with `u2 ≠ u1`: the lookup
either misses or returns exactly what it would have returned before the
write. -/
theorem query_cache_user_isolation (md5 : String → String)
    (hinj : Function.Injective md5) (u1 u2 question : String) (hne : u1 ≠ u2)
    (qc : QueryCache) (resp : RagResponse) (now nowR : ℚ) :
    (get_cached_response md5 nowR (cache_response md5 now qc question u1 resp)
        question u2).1 = none ∨
    (get_cached_response md5 nowR (cache_response md5 now qc question u1 resp)
        question u2).1 = (get_cached_response md5 nowR qc question u2).1 := by
  have hkeys : getCacheKey md5 question u1 ≠ getCacheKey md5 question u2 := by
    intro h
    apply hne
    have harg := hinj h
    have hdata : u1.data ++ (":".data ++ (pyNormalize question).data) =
        u2.data ++ (":".data ++ (pyNormalize question).data) := by
      have h1 : (u1 ++ ":" ++ pyNormalize question).data =
          u1.data ++ (":".data ++ (pyNormalize question).data) := by
        show (u1.data ++ ":".data) ++ (pyNormalize question).data = _
        rw [List.append_assoc]
      have h2 : (u2 ++ ":" ++ pyNormalize question).data =
          u2.data ++ (":".data ++ (pyNormalize question).data) := by
        show (u2.data ++ ":".data) ++ (pyNormalize question).data = _
        rw [List.append_assoc]
      rw [← h1, ← h2, harg]
    have : u1.data = u2.data := List.append_cancel_right hdata
    cases u1
    cases u2
    exact congrArg String.mk this
  have hfst : ∀ q2 : QueryCache,
      (get_cached_response md5 nowR q2 question u2).1 =
        match dictGet q2 (getCacheKey md5 question u2) with
        | some slot =>
          if nowR - slot.timestamp < CACHE_TTL then
            some { slot.response with cached := true, latency_ms := 5 }
          else none
        | none => none := by
    intro q2
    rw [get_cached_response]
    cases dictGet q2 (getCacheKey md5 question u2) with
    | some slot =>
      by_cases hexp : nowR - slot.timestamp < CACHE_TTL
      · simp [hexp]
      · simp [hexp]
    | none => rfl
  have hset : cache_response md5 now qc question u1 resp =
      dictSet
        (if 1000 < qc.length then
          match qc with
          | [] => qc
          | kv :: rest => dictDel qc (oldestKey rest kv.1 kv.2.timestamp)
         else qc)
        (getCacheKey md5 question u1) ⟨resp, now, resp.latency_ms⟩ := rfl
  by_cases hlim : 1000 < qc.length
  · cases qc with
    | nil => simp at hlim
    | cons kv rest =>
      have hget : dictGet (cache_response md5 now (kv :: rest) question u1 resp)
          (getCacheKey md5 question u2) =
          dictGet (dictDel (kv :: rest) (oldestKey rest kv.1 kv.2.timestamp))
            (getCacheKey md5 question u2) := by
        rw [hset, if_pos hlim]
        exact dictGet_dictSet_ne _ _ _ _ hkeys
      by_cases hev : getCacheKey md5 question u2 = oldestKey rest kv.1 kv.2.timestamp
      · left
        rw [hfst, hget, dictGet_dictDel, if_pos hev]
      · right
        rw [hfst, hfst, hget, dictGet_dictDel, if_neg hev]
  · right
    have hget : dictGet (cache_response md5 now qc question u1 resp)
        (getCacheKey md5 question u2) = dictGet qc (getCacheKey md5 question u2) := by
      rw [hset, if_neg hlim]
      exact dictGet_dictSet_ne _ _ _ _ hkeys
    rw [hfst, hfst, hget]

/-- Witness for `query_cache_user_isolation`: users `"alice"` and `"bob"`
with the identity digest on an empty cache. -/
theorem query_cache_user_isolation_witness :
    Function.Injective (id : String → String) ∧ "alice" ≠ "bob" ∧
    ((get_cached_response id 5 (cache_response id 0 [] "q" "alice"
        ⟨"ans", [], "s", none, 0, "m", false⟩) "q" "bob").1 = none ∨
    (get_cached_response id 5 (cache_response id 0 [] "q" "alice"
        ⟨"ans", [], "s", none, 0, "m", false⟩) "q" "bob").1 =
      (get_cached_response id 5 [] "q" "bob").1) :=
  ⟨fun _ _ h => h, by decide,
    query_cache_user_isolation id (fun _ _ h => h) "alice" "bob" "q" (by decide)
      [] ⟨"ans", [], "s", none, 0, "m", false⟩ 0 5⟩

/-! ### The chunker (`ingest.py`: `IngestService._chunk_text` and
`IngestService._split_large_text`) -/

/-- One extracted content item `{text, page, paragraph}`. -/
structure ContentItem where
  text : String
  page : Option Nat
  paragraph : Option Nat
  deriving DecidableEq, Repr

/-- One produced chunk descriptor `{text, token_count, page, paragraph}`. -/
structure ChunkRec where
  text : String
  token_count : Nat
  page : Option Nat
  paragraph : Option Nat
  deriving DecidableEq, Repr

/-- Python `sep.join(parts)`. -/
def pyJoin (sep : String) : List String → String
  | [] => ""
  | [x] => x
  | x :: rest => x ++ sep ++ pyJoin sep rest

/-- `text.replace('!', '.').replace('?', '.').split('.')`. -/
def pySplitSentences (text : String) : List String :=
  ((text.replace "!" ".").replace "?" ".").splitOn "."

/-- The sentence loop of `_split_large_text`; `tok` abstracts
`len(self.tokenizer.encode(s))` (the tiktoken tokenizer).  Blank sentences
are skipped; a sentence is flushed into the running chunk, and the chunk is
emitted when the next sentence would push it past `chunk_size`. -/
def splitLoop (tok : String → Nat) (chunk_size : Nat) (page para : Option Nat) :
    List String → List String → Nat → List ChunkRec
  | [], current, curTok =>
    if current.isEmpty then []
    else [⟨pyJoin ". " current ++ ".", curTok, page, para⟩]
  | s0 :: rest, current, curTok =>
    if (pyStrip s0).isEmpty then
      splitLoop tok chunk_size page para rest current curTok
    else if chunk_size < curTok + tok (pyStrip s0) ∧ ¬current.isEmpty then
      ⟨pyJoin ". " current ++ ".", curTok, page, para⟩ ::
        splitLoop tok chunk_size page para rest [pyStrip s0] (tok (pyStrip s0))
    else
      splitLoop tok chunk_size page para rest (current ++ [pyStrip s0])
        (curTok + tok (pyStrip s0))

/-- `IngestService._split_large_text`. -/
def split_large_text (tok : String → Nat) (chunk_size : Nat) (text : String)
    (page para : Option Nat) : List ChunkRec :=
  splitLoop tok chunk_size page para (pySplitSentences text) [] 0

/-- The item loop of `_chunk_text`: an item larger than `chunk_size` flushes
the buffer and is sentence-split (`continue` leaves the running page and
paragraph tags untouched); otherwise the buffer is flushed when the item
would push it past `chunk_size` and reseeded with the last accumulated item
as overlap when that item fits within `chunk_overlap`. -/
def chunkLoop (tok : String → Nat) (chunk_size chunk_overlap : Nat) :
    List ContentItem → List String → Nat → Option Nat → Option Nat → List ChunkRec
  | [], current, curTok, curPage, curPara =>
    if current.isEmpty then []
    else [⟨pyJoin " " current, curTok, curPage, curPara⟩]
  | item :: rest, current, curTok, curPage, curPara =>
    if chunk_size < tok item.text then
      (if current.isEmpty then []
       else [⟨pyJoin " " current, curTok, curPage, curPara⟩]) ++
      split_large_text tok chunk_size item.text item.page item.paragraph ++
      chunkLoop tok chunk_size chunk_overlap rest [] 0 curPage curPara
    else if chunk_size < curTok + tok item.text ∧ ¬current.isEmpty then
      ⟨pyJoin " " current, curTok, curPage, curPara⟩ ::
        chunkLoop tok chunk_size chunk_overlap rest
          ((if tok (current.getLastD "") ≤ chunk_overlap then
              (if (current.getLastD "").isEmpty then [] else [current.getLastD ""])
            else []) ++ [item.text])
          ((if tok (current.getLastD "") ≤ chunk_overlap then tok (current.getLastD "")
            else 0) + tok item.text)
          item.page item.paragraph
    else
      chunkLoop tok chunk_size chunk_overlap rest (current ++ [item.text])
        (curTok + tok item.text) item.page item.paragraph

/-- `IngestService._chunk_text`. -/
def chunk_text (tok : String → Nat) (chunk_size chunk_overlap : Nat)
    (content : List ContentItem) : List ChunkRec :=
  chunkLoop tok chunk_size chunk_overlap content [] 0 none none

/-- A concrete tokenizer instance for the counterexample: one token per
character. -/
def tokLen (s : String) : Nat := s.length

/-- The two-item input on which the overlap carry-over exceeds the chunk
size: token counts 5 and 9 under `chunk_size = 10`, `chunk_overlap = 5`. -/
def c2content : List ContentItem :=
  [⟨"aaaaa", none, none⟩, ⟨"bbbbbbbbb", none, none⟩]

/-- C2 counterexample: with `chunk_size = 10` and `chunk_overlap = 5`, two
items of 5 and 9 tokens (both within the chunk size, so no sentence
splitting is ever involved) produce a chunk of 14 tokens: flushing seeds the
next buffer with the 5-token overlap and the 9-token item joins it, so the
emitted chunk exceeds `max_tokens` even though no single sentence does. -/
theorem chunk_token_bound_claim_false :
    (∀ item ∈ c2content, tokLen item.text ≤ 10) ∧
    ∃ ch ∈ chunk_text tokLen 10 5 c2content, 10 < ch.token_count := by decide

theorem splitLoop_bound (tok : String → Nat) (cs : Nat) (page para : Option Nat)
    (sentences : List String) :
    ∀ (current : List String) (curTok : Nat),
      (current = [] → curTok = 0) →
      (curTok ≤ cs ∨ ∃ s, current = [s] ∧ curTok = tok s) →
      ∀ ch ∈ splitLoop tok cs page para sentences current curTok,
        ch.token_count ≤ cs ∨ ∃ s, ch.text = s ++ "." ∧ ch.token_count = tok s := by
  induction sentences with
  | nil =>
    intro current curTok hzero hinv ch hch
    rw [splitLoop] at hch
    by_cases hemp : current.isEmpty
    · rw [if_pos hemp] at hch
      cases hch
    · rw [if_neg hemp] at hch
      have hch' := List.mem_singleton.mp hch
      subst hch'
      rcases hinv with h | ⟨s, hs, ht⟩
      · exact Or.inl h
      · right
        refine ⟨s, ?_, ht⟩
        rw [hs]
        rfl
  | cons s0 rest ih =>
    intro current curTok hzero hinv ch hch
    rw [splitLoop] at hch
    by_cases hblank : (pyStrip s0).isEmpty
    · rw [if_pos hblank] at hch
      exact ih current curTok hzero hinv ch hch
    · rw [if_neg hblank] at hch
      by_cases hflush : cs < curTok + tok (pyStrip s0) ∧ ¬current.isEmpty
      · rw [if_pos hflush] at hch
        rcases List.mem_cons.mp hch with hch' | hrest
        · subst hch'
          rcases hinv with h | ⟨s, hs, ht⟩
          · exact Or.inl h
          · right
            refine ⟨s, ?_, ht⟩
            rw [hs]
            rfl
        · refine ih _ _ ?_ ?_ ch hrest
          · intro habs
            cases habs
          · exact Or.inr ⟨pyStrip s0, rfl, rfl⟩
      · rw [if_neg hflush] at hch
        refine ih _ _ ?_ ?_ ch hch
        · intro habs
          have := congrArg List.length habs
          simp at this
        · by_cases hle : cs < curTok + tok (pyStrip s0)
          · have hcur : current.isEmpty := by
              by_contra hne
              exact hflush ⟨hle, hne⟩
            have h0 : curTok = 0 := hzero (List.isEmpty_iff.mp hcur)
            rw [List.isEmpty_iff.mp hcur, h0]
            exact Or.inr ⟨pyStrip s0, rfl, by rw [Nat.zero_add]⟩
          · exact Or.inl (Nat.le_of_not_lt hle)

theorem chunkLoop_bound (tok : String → Nat) (cs co : Nat)
    (content : List ContentItem) :
    ∀ (current : List String) (curTok : Nat) (curPage curPara : Option Nat),
      (current = [] → curTok = 0) → curTok ≤ cs + co →
      ∀ ch ∈ chunkLoop tok cs co content current curTok curPage curPara,
        ch.token_count ≤ cs + co ∨
          ∃ s, ch.text = s ++ "." ∧ ch.token_count = tok s := by
  induction content with
  | nil =>
    intro current curTok curPage curPara hzero hb ch hch
    rw [chunkLoop] at hch
    by_cases hemp : current.isEmpty
    · rw [if_pos hemp] at hch
      cases hch
    · rw [if_neg hemp] at hch
      have hch' := List.mem_singleton.mp hch
      subst hch'
      exact Or.inl hb
  | cons item rest ih =>
    intro current curTok curPage curPara hzero hb ch hch
    rw [chunkLoop] at hch
    by_cases hsplit : cs < tok item.text
    · rw [if_pos hsplit] at hch
      rcases List.mem_append.mp hch with hch1 | hch2
      · rcases List.mem_append.mp hch1 with hcha | hchb
        · by_cases hemp : current.isEmpty
          · rw [if_pos hemp] at hcha
            cases hcha
          · rw [if_neg hemp] at hcha
            have hch' := List.mem_singleton.mp hcha
            subst hch'
            exact Or.inl hb
        · have := splitLoop_bound tok cs item.page item.paragraph
            (pySplitSentences item.text) [] 0 (fun _ => rfl)
            (Or.inl (Nat.zero_le cs)) ch hchb
          rcases this with h | h
          · exact Or.inl (le_trans h (Nat.le_add_right cs co))
          · exact Or.inr h
      · exact ih [] 0 curPage curPara (fun _ => rfl) (Nat.zero_le _) ch hch2
    · rw [if_neg hsplit] at hch
      have hitem : tok item.text ≤ cs := Nat.le_of_not_lt hsplit
      by_cases hflush : cs < curTok + tok item.text ∧ ¬current.isEmpty
      · rw [if_pos hflush] at hch
        rcases List.mem_cons.mp hch with hch' | hrest
        · subst hch'
          exact Or.inl hb
        · refine ih _ _ _ _ ?_ ?_ ch hrest
          · intro habs
            have := congrArg List.length habs
            simp at this
          · have hov : (if tok (current.getLastD "") ≤ co
                then tok (current.getLastD "") else 0) ≤ co := by
              by_cases h : tok (current.getLastD "") ≤ co
              · rw [if_pos h]
                exact h
              · rw [if_neg h]
                exact Nat.zero_le co
            calc (if tok (current.getLastD "") ≤ co
                  then tok (current.getLastD "") else 0) + tok item.text
                ≤ co + cs := Nat.add_le_add hov hitem
              _ = cs + co := Nat.add_comm co cs
      · rw [if_neg hflush] at hch
        refine ih _ _ _ _ ?_ ?_ ch hch
        · intro habs
          have := congrArg List.length habs
          simp at this
        · by_cases hle : cs < curTok + tok item.text
          · have hcur : current.isEmpty := by
              by_contra hne
              exact hflush ⟨hle, hne⟩
            rw [hzero (List.isEmpty_iff.mp hcur), Nat.zero_add]
            exact le_trans hitem (Nat.le_add_right cs co)
          · exact le_trans (Nat.le_of_not_lt hle) (Nat.le_add_right cs co)

/-- C2 amended: every chunk the chunker produces has `token_count` at most
`chunk_size + chunk_overlap` — the overlap text seeded from the previous
chunk can push the total past `chunk_size` by up to `chunk_overlap` — except
chunks that are the unsplittable remainder of a single sentence whose own
token count exceeds `chunk_size`. -/
theorem chunk_token_bound (tok : String → Nat) (chunk_size chunk_overlap : Nat)
    (content : List ContentItem) :
    ∀ ch ∈ chunk_text tok chunk_size chunk_overlap content,
      ch.token_count ≤ chunk_size + chunk_overlap ∨
      (chunk_size < ch.token_count ∧
        ∃ s, ch.text = s ++ "." ∧ ch.token_count = tok s) := by
  intro ch hch
  have h := chunkLoop_bound tok chunk_size chunk_overlap content [] 0 none none
    (fun _ => rfl) (Nat.zero_le _) ch hch
  rcases h with h | h
  · exact Or.inl h
  · by_cases hb : ch.token_count ≤ chunk_size + chunk_overlap
    · exact Or.inl hb
    · refine Or.inr ⟨?_, h⟩
      have := Nat.lt_of_not_le hb
      omega

/-- Witness for `chunk_token_bound` on the two-item input of the
counterexample: its first chunk. -/
theorem chunk_token_bound_witness :
    (⟨"aaaaa", 5, none, none⟩ : ChunkRec) ∈ chunk_text tokLen 10 5 c2content ∧
    ((⟨"aaaaa", 5, none, none⟩ : ChunkRec).token_count ≤ 10 + 5 ∨
      (10 < (⟨"aaaaa", 5, none, none⟩ : ChunkRec).token_count ∧
        ∃ s, (⟨"aaaaa", 5, none, none⟩ : ChunkRec).text = s ++ "." ∧
          (⟨"aaaaa", 5, none, none⟩ : ChunkRec).token_count = tokLen s)) :=
  ⟨by decide, chunk_token_bound tokLen 10 5 c2content _ (by decide)⟩

end Blogify
